import Mathlib

set_option maxRecDepth 2000

/-!
# Verification of the azalea wire-protocol writer

A shallow embedding of the byte-sink writer in
`azalea-protocol/src/mc_buf/write.rs` and of the UUID integer-array codec in
`minecraft-core/src/serializable_uuid.rs`, together with proofs of the
documented wire-format properties.

Modelling conventions:
* the byte sink (`Vec<u8>`) is a `List Nat` of byte values; every writer takes
  the current sink and returns the sink with its output appended;
* machine integers are embedded by their two's-complement bit pattern
  (a `Nat` below `2 ^ width`); signed values are `Int` and are converted to and
  from patterns explicitly;
* a Rust `&str` is embedded as its UTF-8 byte list (`String::len` in the source
  is the UTF-8 byte length, `String::as_bytes` the byte list);
* `panic!` (in `write_utf_with_len`) is embedded by returning the sink paired
  with a success flag: `false` means the call panicked, and the sink component
  is the sink's content at the moment of the panic.
-/

/-- The 32-bit two's-complement pattern of an `i32` value (also the effect of
Rust's `as i32`/`as u32` wrapping cast on a wider value). -/
def i32pat (v : Int) : Nat := (v % (2 ^ 32 : Int)).toNat

/-- The `i32` value whose 32-bit pattern is `p` (for `p < 2 ^ 32`). -/
def i32val (p : Nat) : Int := if p < 2 ^ 31 then (p : Int) else (p : Int) - 2 ^ 32

/-- The 16-bit two's-complement pattern of an `i16` value. -/
def i16pat (v : Int) : Nat := (v % (2 ^ 16 : Int)).toNat

/-- The `i16` value whose 16-bit pattern is `p` (for `p < 2 ^ 16`): this is
Rust's `as i16` cast applied to the low 16 bits `p` of an unsigned value. -/
def i16val (p : Nat) : Int := if p < 2 ^ 15 then (p : Int) else (p : Int) - 2 ^ 16

/-- The 64-bit two's-complement pattern of an `i64` value. -/
def i64pat (v : Int) : Nat := (v % (2 ^ 64 : Int)).toNat

/-! ## Primitive writers (`impl Writable for Vec<u8>`) -/

/-- Source `write_byte(n: u8)`: append the single byte `n` (source: `write_u8`). -/
def write_byte (buf : List Nat) (n : Nat) : List Nat := buf ++ [n]

/-- Source `write_bytes(bytes)`: append the raw bytes verbatim
(source: `extend_from_slice`). -/
def write_bytes (buf : List Nat) (bytes : List Nat) : List Nat := buf ++ bytes

/-- One update of the `write_varint` loop variable, exactly as in the source:
`value = (value >> 7) & (i32::max_value() >> 6)`. The arithmetic shift right
by 7 of an `i32` is floor division by `2 ^ 7`, which for the positive divisor
`128` coincides with Lean's Euclidean `/` on `Int`; `i32::max_value() >> 6` is
the mask `0x01FF_FFFF = 2 ^ 25 - 1`, and and-ing with it takes the result's
low 25 pattern bits, i.e. `% 2 ^ 25` (Euclidean `%`, hence non-negative). -/
def varintUpdate (value : Int) : Int := value / 2 ^ 7 % 2 ^ 25

/-- The `while value != 0` loop of `write_varint`, expressed on the loop
variable's 32-bit pattern `p`: each iteration emits the low 7 bits of `p`,
with the continuation bit `0x80` added when the updated value is non-zero,
and replaces `p` by `p / 128` — the pattern-level effect of the source update
`value = (value >> 7) & (i32::max_value() >> 6)` (theorem
`varintUpdate_pattern` below proves this correspondence). -/
def write_varint_go (p : Nat) : List Nat :=
  if _h : p = 0 then []
  else
    (if p / 128 = 0 then p % 128 else p % 128 + 128) :: write_varint_go (p / 128)
decreasing_by exact Nat.div_lt_self (Nat.pos_of_ne_zero _h) (by omega)

/-- The bytes `write_varint(value)` appends: a single zero byte when the value
is zero (the `if value == 0` branch of the source), otherwise the loop's
output. -/
def varintBytes (value : Int) : List Nat :=
  if i32pat value = 0 then [0] else write_varint_go (i32pat value)

/-- Source `write_varint(value: i32)`: append the VarInt encoding of `value`. -/
def write_varint (buf : List Nat) (value : Int) : List Nat :=
  buf ++ varintBytes value

/-- Source `write_utf_with_len(string, len)`: `panic!` (flag `false`, sink unchanged,
the check precedes every write) when the string's UTF-8 byte length exceeds
`len`; otherwise append the VarInt of the byte length (`string.len() as i32`)
followed by the UTF-8 bytes. -/
def write_utf_with_len (buf : List Nat) (s : List Nat) (len : Nat) :
    List Nat × Bool :=
  if s.length > len then (buf, false)
  else (write_bytes (write_varint buf (s.length : Int)) s, true)

/-- Modelled from the spec: `MAX_STRING_LENGTH`, the protocol-wide maximum
string byte length, imported by the writer from its `mc_buf` module (a module
not included in the sources). The spec calls it "a protocol-wide maximum
string byte length"; the protocol's value is the `u16` constant `32767`. -/
def MAX_STRING_LENGTH : Nat := 32767

/-- Source `write_utf(string)`: `write_utf_with_len` at the protocol-wide maximum
string byte length. -/
def write_utf (buf : List Nat) (s : List Nat) : List Nat × Bool :=
  write_utf_with_len buf s MAX_STRING_LENGTH

/-- Source `write_short(n: i16)`: append the 2-byte big-endian form of `n`'s 16-bit
pattern (source: `write_i16::<BigEndian>`). -/
def write_short (buf : List Nat) (n : Int) : List Nat :=
  buf ++ [i16pat n / 2 ^ 8, i16pat n % 2 ^ 8]

/-- Source `write_byte_array(bytes)`: append the VarInt of the length
(`bytes.len() as i32`) then the raw bytes. -/
def write_byte_array (buf : List Nat) (bytes : List Nat) : List Nat :=
  write_bytes (write_varint buf (bytes.length : Int)) bytes

/-- Source `write_int(n: i32)`: append the 4-byte big-endian form of `n`'s 32-bit
pattern (source: `write_i32::<BigEndian>`). -/
def write_int (buf : List Nat) (n : Int) : List Nat :=
  buf ++ [i32pat n / 2 ^ 24, i32pat n / 2 ^ 16 % 2 ^ 8,
    i32pat n / 2 ^ 8 % 2 ^ 8, i32pat n % 2 ^ 8]

/-- Source `write_boolean(b)`: one byte, `1` for `true`, `0` for `false`. -/
def write_boolean (buf : List Nat) (b : Bool) : List Nat :=
  write_byte buf (if b then 1 else 0)

/-- Source `write_long(n: i64)`: append the 8-byte big-endian form of `n`'s 64-bit
pattern (source: `write_i64::<BigEndian>`). -/
def write_long (buf : List Nat) (n : Int) : List Nat :=
  buf ++ [i64pat n / 2 ^ 56, i64pat n / 2 ^ 48 % 2 ^ 8,
    i64pat n / 2 ^ 40 % 2 ^ 8, i64pat n / 2 ^ 32 % 2 ^ 8,
    i64pat n / 2 ^ 24 % 2 ^ 8, i64pat n / 2 ^ 16 % 2 ^ 8,
    i64pat n / 2 ^ 8 % 2 ^ 8, i64pat n % 2 ^ 8]

/-- Source `write_float(n: f32)`: append the 4-byte big-endian form of the float's
IEEE-754 bit pattern (source: `write_f32::<BigEndian>`, which writes
`n.to_bits()` big-endian); the `f32` argument is embedded by that 32-bit
pattern `bits`. -/
def write_float (buf : List Nat) (bits : Nat) : List Nat :=
  buf ++ [bits % 2 ^ 32 / 2 ^ 24, bits / 2 ^ 16 % 2 ^ 8,
    bits / 2 ^ 8 % 2 ^ 8, bits % 2 ^ 8]

/-- A `ResourceLocation` (from `azalea-core`, not included in the sources):
a two-part `namespace:path` name; both parts embedded as UTF-8 byte lists. -/
structure ResourceLocation where
  ns : List Nat
  path : List Nat

/-- Modelled from the spec: the canonical string form of a resource
identifier, `namespace` `:` `path` (`0x3a` is the UTF-8 byte of `:`); the
`ResourceLocation::to_string` used by the writer lives in `azalea-core`,
outside the sources. -/
def ResourceLocation.canonical (r : ResourceLocation) : List Nat :=
  r.ns ++ [0x3a] ++ r.path

/-- Source `write_resource_location(location)`: `write_utf` on the identifier's
canonical string form. -/
def write_resource_location (buf : List Nat) (r : ResourceLocation) :
    List Nat × Bool :=
  write_utf buf r.canonical

/-! ## Collection writers -/

/-- Source `write_list(list, writer)`: append the VarInt of `list.len() as i32`, then
invoke `writer` on each item in order, all into the same sink. The source
threads `Result` through the element writer; the element writers the claims
use are infallible, so `writer` is embedded as a total sink transformer. -/
def write_list {T : Type} (buf : List Nat) (list : List T)
    (writer : List Nat → T → List Nat) : List Nat :=
  list.foldl writer (write_varint buf (list.length : Int))

/-- Source `write_int_id_list(list)`: `write_list` with `write_varint` as the element
writer. -/
def write_int_id_list (buf : List Nat) (list : List Int) : List Nat :=
  write_list buf list (fun b n => write_varint b n)

/-- Source `write_map(map, key_writer, value_writer)`: append the VarInt of
`map.len() as i32`, then for each pair the key then the value, in input
order. -/
def write_map {KT VT : Type} (buf : List Nat) (map : List (KT × VT))
    (key_writer : List Nat → KT → List Nat)
    (value_writer : List Nat → VT → List Nat) : List Nat :=
  map.foldl (fun b kv => value_writer (key_writer b kv.1) kv.2)
    (write_varint buf (map.length : Int))

/-! ## Type-to-wire dispatch (`McBufWritable` / `McBufVarintWritable`) -/

/-- Source `impl McBufWritable for i32`: `write_int`. -/
def i32_write_into (v : Int) (buf : List Nat) : List Nat := write_int buf v

/-- Source `impl McBufVarintWritable for i32`: `write_varint`. -/
def i32_varint_write_into (v : Int) (buf : List Nat) : List Nat :=
  write_varint buf v

/-- Source `impl McBufWritable for Vec<u8>`: `write_bytes` — the raw bytes, with no
length prefix. -/
def vec_u8_write_into (v : List Nat) (buf : List Nat) : List Nat :=
  write_bytes buf v

/-- Source `impl McBufWritable for i16`: `write_short`. -/
def i16_write_into (v : Int) (buf : List Nat) : List Nat := write_short buf v

/-- Source `impl McBufWritable for u32`: `i16::write_into(&(*self as i16), buf)` —
the value is cast to `i16` (keeping only its low 16 bits, reinterpreted as a
signed value) and written through the 16-bit path. -/
def u32_write_into (v : Nat) (buf : List Nat) : List Nat :=
  i16_write_into (i16val (v % 2 ^ 16)) buf

/-- Source `impl McBufWritable for u16`: `i16::write_into(&(*self as i16), buf)` —
the same `as i16` cast and 16-bit path as `u32` (for `v < 2 ^ 16` the cast
keeps every bit). -/
def u16_write_into (v : Nat) (buf : List Nat) : List Nat :=
  i16_write_into (i16val (v % 2 ^ 16)) buf

/-! ## UUID integer-array codec (`serializable_uuid.rs`)

A `Uuid` is embedded by its 128-bit value (a `Nat` below `2 ^ 128`), a `u64`
by a `Nat` below `2 ^ 64`, and the `[u32; 4]` array by a `List Nat` of length
four. -/

/-- Source `least_most_to_int_array(most, least)`:
`[(most >> 32) as u32, most as u32, (least >> 32) as u32, least as u32]`
(each `as u32` keeps the low 32 bits). -/
def least_most_to_int_array (most least : Nat) : List Nat :=
  [most / 2 ^ 32 % 2 ^ 32, most % 2 ^ 32,
    least / 2 ^ 32 % 2 ^ 32, least % 2 ^ 32]

/-- Source `to_int_array`: split the 128-bit value into its most-significant 64 bits
(`self.as_u128() >> 64`, cast to `u64`) and least-significant 64 bits
(`self.as_u128() & 0xffffffffffffffff`), then `least_most_to_int_array`. -/
def to_int_array (u : Nat) : List Nat :=
  least_most_to_int_array (u / 2 ^ 64 % 2 ^ 64) (u % 2 ^ 64)

/-- Source `from_int_array(array)`: rebuild
`most = (array[0] as u64) << 32 | (array[1] as u64 & 0xFFFFFFFF)` and
`least` likewise, then the 128-bit value `(most as u128) << 64 | least`. The
bit-ors combine disjoint bit ranges, hence are additions; the `u64` shifts do
not overflow because a `u32` shifted left 32 stays below `2 ^ 64`, so each is
a plain multiplication. Rust's input type `[u32; 4]` fixes the length at four
and each entry below `2 ^ 32`; other lists do not arise. -/
def from_int_array : List Nat → Nat
  | [a0, a1, a2, a3] =>
    (a0 % 2 ^ 32 * 2 ^ 32 + a1 % 2 ^ 32) * 2 ^ 64
      + (a2 % 2 ^ 32 * 2 ^ 32 + a3 % 2 ^ 32)
  | _ => 0

/-! ## The read side, modelled from the spec

Only the writer is under `src/`; the spec fixes the decoder ("the reader must
accept exactly the byte sequences this writer produces, including identical
VarInt shift semantics"). -/

/-- Modelled from the spec: the standard VarInt decoder's accumulation loop —
each byte contributes its low 7 bits at the current shift position
(little-endian groups), and a clear high bit ends the number. Returns the
accumulated unsigned pattern and the unconsumed tail. -/
def decode_varint_go : List Nat → Nat → Nat → Option (Nat × List Nat)
  | [], _, _ => none
  | b :: rest, shift, acc =>
    if b < 128 then some (acc + b % 128 * 2 ^ shift, rest)
    else decode_varint_go rest (shift + 7) (acc + b % 128 * 2 ^ shift)

/-- Modelled from the spec: the standard VarInt decoder — 7 payload bits per
byte, little-endian groups, high bit as continuation flag, no zigzag, the
result reassembled as a 32-bit pattern reinterpreted as `i32`. Returns the
decoded value and the unconsumed tail. -/
def decode_varint (bytes : List Nat) : Option (Int × List Nat) :=
  (decode_varint_go bytes 0 0).map (fun r => (i32val (r.1 % 2 ^ 32), r.2))

/-! ## Helper lemmas -/

theorem i32pat_lt (v : Int) : i32pat v < 2 ^ 32 := by
  unfold i32pat; omega

theorem i32val_i32pat (v : Int) (h1 : -2 ^ 31 ≤ v) (h2 : v < 2 ^ 31) :
    i32val (i32pat v) = v := by
  simp only [i32pat, i32val]
  split <;> omega

theorem write_varint_go_zero : write_varint_go 0 = [] := by
  rw [write_varint_go]
  simp

theorem write_varint_go_succ (p : Nat) (h : p ≠ 0) :
    write_varint_go p =
      (if p / 128 = 0 then p % 128 else p % 128 + 128) :: write_varint_go (p / 128) := by
  rw [write_varint_go]
  exact dif_neg h

theorem write_varint_go_len_le (k : Nat) :
    ∀ p, p < 128 ^ k → (write_varint_go p).length ≤ k := by
  induction k with
  | zero =>
    intro p hp
    have : p = 0 := by simpa using hp
    simp [this, write_varint_go_zero]
  | succ k ih =>
    intro p hp
    by_cases h0 : p = 0
    · simp [h0, write_varint_go_zero]
    · rw [write_varint_go_succ p h0]
      have hdiv : p / 128 < 128 ^ k := by
        rw [Nat.div_lt_iff_lt_mul (by norm_num : 0 < 128)]
        calc p < 128 ^ (k + 1) := hp
          _ = 128 ^ k * 128 := by rw [pow_succ]
      have := ih (p / 128) hdiv
      simp only [List.length_cons]
      omega

theorem write_varint_go_len_ge (k : Nat) :
    ∀ p, 128 ^ k ≤ p → k + 1 ≤ (write_varint_go p).length := by
  induction k with
  | zero =>
    intro p hp
    have hp1 : 1 ≤ p := by simpa using hp
    rw [write_varint_go_succ p (by omega)]
    simp
  | succ k ih =>
    intro p hp
    have h0 : p ≠ 0 := by
      have : 0 < 128 ^ (k + 1) := Nat.pos_pow_of_pos _ (by norm_num)
      omega
    rw [write_varint_go_succ p h0]
    have hdiv : 128 ^ k ≤ p / 128 := by
      rw [Nat.le_div_iff_mul_le (by norm_num : 0 < 128)]
      calc 128 ^ k * 128 = 128 ^ (k + 1) := by rw [pow_succ]
        _ ≤ p := hp
    have := ih (p / 128) hdiv
    simp only [List.length_cons]
    omega

theorem decode_go_write_go (p : Nat) :
    p ≠ 0 → ∀ shift acc extra,
      decode_varint_go (write_varint_go p ++ extra) shift acc
        = some (acc + p * 2 ^ shift, extra) := by
  induction p using Nat.strong_induction_on with
  | _ p ih =>
    intro hp shift acc extra
    rw [write_varint_go_succ p hp]
    by_cases h2 : p / 128 = 0
    · have hlt : p < 128 := by omega
      have hmod : p % 128 = p := Nat.mod_eq_of_lt hlt
      simp [h2, decode_varint_go, hmod, hlt, write_varint_go_zero]
    · have hbyte : ¬ p % 128 + 128 < 128 := by omega
      have hdl : p / 128 < p := Nat.div_lt_self (Nat.pos_of_ne_zero hp) (by omega)
      simp only [if_neg h2, List.cons_append, decode_varint_go, if_neg hbyte,
        List.append_eq]
      rw [ih (p / 128) hdl h2 (shift + 7) (acc + (p % 128 + 128) % 128 * 2 ^ shift) extra]
      have hmm : (p % 128 + 128) % 128 = p % 128 := by omega
      have hmd : p % 128 + 128 * (p / 128) = p := Nat.mod_add_div p 128
      rw [hmm]
      congr 2
      calc acc + p % 128 * 2 ^ shift + p / 128 * 2 ^ (shift + 7)
          = acc + (p % 128 + 128 * (p / 128)) * 2 ^ shift := by rw [pow_add]; ring
        _ = acc + p * 2 ^ shift := by rw [hmd]

theorem varintBytes_len_le (value : Int) : (varintBytes value).length ≤ 5 := by
  unfold varintBytes
  by_cases h : i32pat value = 0
  · simp [h]
  · rw [if_neg h]
    exact write_varint_go_len_le 5 (i32pat value)
      (lt_of_lt_of_le (i32pat_lt value) (by norm_num))

theorem varintBytes_ne_nil (value : Int) : varintBytes value ≠ [] := by
  unfold varintBytes
  by_cases h : i32pat value = 0
  · simp [h]
  · rw [if_neg h, write_varint_go_succ _ h]
    simp

theorem foldl_writer_join {T : Type} (w : List Nat → T → List Nat)
    (wbytes : T → List Nat) (hw : ∀ b x, w b x = b ++ wbytes x) :
    ∀ (l : List T) (b : List Nat), l.foldl w b = b ++ (l.map wbytes).flatten := by
  intro l
  induction l with
  | nil => intro b; simp
  | cons x xs ih =>
    intro b
    simp [List.foldl_cons, hw, ih, List.append_assoc]

theorem foldl_writer_ex {T : Type} (w : List Nat → T → List Nat)
    (hw : ∀ b x, ∃ t, w b x = b ++ t) :
    ∀ (l : List T) (b : List Nat), ∃ t, l.foldl w b = b ++ t := by
  intro l
  induction l with
  | nil => intro b; exact ⟨[], by simp⟩
  | cons x xs ih =>
    intro b
    obtain ⟨t1, h1⟩ := hw b x
    obtain ⟨t2, h2⟩ := ih (w b x)
    exact ⟨t1 ++ t2, by rw [List.foldl_cons, h2, h1, List.append_assoc]⟩

theorem i16pat_i16val (q : Nat) (h : q < 2 ^ 16) : i16pat (i16val q) = q := by
  simp only [i16pat, i16val]
  split <;> omega

/-! ## Claims -/

/-- C9: `write_varint` terminates for every `i32` input, negative inputs
included: the source's loop update `value = (value >> 7) & (i32::max_value()
>> 6)` is the unsigned logical right shift by 7 of the 32-bit pattern (no
sign re-extension), which strictly decreases any non-zero remaining pattern
toward zero, and the loop runs at most 5 iterations (one emitted byte per
iteration). -/
theorem c9_varint_terminates :
    (∀ p : Nat, p < 2 ^ 32 → varintUpdate (i32val p) = ((p / 128 : Nat) : Int))
      ∧ (∀ p : Nat, p < 2 ^ 32 → p ≠ 0 → p / 128 < p)
      ∧ (∀ p : Nat, p < 2 ^ 32 → (write_varint_go p).length ≤ 5) := by
  refine ⟨?_, ?_, ?_⟩
  · intro p hp
    simp only [varintUpdate, i32val]
    split <;> omega
  · intro p _hp h0
    exact Nat.div_lt_self (Nat.pos_of_ne_zero h0) (by omega)
  · intro p hp
    exact write_varint_go_len_le 5 p (lt_of_lt_of_le hp (by norm_num))

/-- Witness for C9 at the all-one pattern `2 ^ 32 - 1` (the value `-1`). -/
theorem c9_witness :
    varintUpdate (i32val 4294967295) = ((4294967295 / 128 : Nat) : Int)
      ∧ 4294967295 / 128 < 4294967295
      ∧ (write_varint_go 4294967295).length ≤ 5 :=
  ⟨c9_varint_terminates.1 4294967295 (by norm_num),
    c9_varint_terminates.2.1 4294967295 (by norm_num) (by norm_num),
    c9_varint_terminates.2.2 4294967295 (by norm_num)⟩

/-- C2, counterexample: `write_varint(-1)` appends
`[0xFF, 0xFF, 0xFF, 0xFF, 0x0F]` — the last byte's low 7 value bits are
`0x0F`, not `0x7F` as the claim states for every byte. -/
theorem c2_counterexample :
    varintBytes (-1) = [0xFF, 0xFF, 0xFF, 0xFF, 0x0F]
      ∧ ¬ (∀ b ∈ varintBytes (-1), b % 128 = 0x7F) := by
  have hp : i32pat (-1) = 4294967295 := by decide
  have h : varintBytes (-1) = [0xFF, 0xFF, 0xFF, 0xFF, 0x0F] := by
    simp [varintBytes, hp, write_varint_go]
  refine ⟨h, ?_⟩
  rw [h]
  decide

/-- C2 (amended): for every `i32` value `v`, `write_varint(v)` appends at
most 5 bytes; it appends exactly 1 byte when `0 ≤ v ≤ 127` (in particular
`write_varint(0)` appends the single byte `0x00`); it appends exactly 5 bytes
when `v < 0`; and `v = -1` produces the five bytes
`[0xFF, 0xFF, 0xFF, 0xFF, 0x0F]` — continuation (high) bit set on every byte
except the last, low 7 value bits `0x7F` on each of the first four bytes and
`0x0F` on the last. -/
theorem c2_varint_byte_lengths :
    (∀ v : Int, (varintBytes v).length ≤ 5)
      ∧ (∀ v : Int, 0 ≤ v → v ≤ 127 → (varintBytes v).length = 1)
      ∧ varintBytes 0 = [0]
      ∧ (∀ v : Int, -2 ^ 31 ≤ v → v < 0 → (varintBytes v).length = 5)
      ∧ varintBytes (-1) = [0xFF, 0xFF, 0xFF, 0xFF, 0x0F] := by
  refine ⟨varintBytes_len_le, ?_, by decide, ?_, ?_⟩
  · intro v h0 h127
    have hp : i32pat v < 128 := by
      unfold i32pat
      omega
    unfold varintBytes
    by_cases h : i32pat v = 0
    · simp [h]
    · rw [if_neg h, write_varint_go_succ _ h]
      have hd : i32pat v / 128 = 0 := by omega
      simp [hd, write_varint_go_zero]
  · intro v hlo hneg
    have hp : 2 ^ 31 ≤ i32pat v := by
      unfold i32pat
      omega
    have h0 : i32pat v ≠ 0 := by omega
    unfold varintBytes
    rw [if_neg h0]
    have hle : (write_varint_go (i32pat v)).length ≤ 5 :=
      write_varint_go_len_le 5 (i32pat v)
        (lt_of_lt_of_le (i32pat_lt v) (by norm_num))
    have hge : 4 + 1 ≤ (write_varint_go (i32pat v)).length :=
      write_varint_go_len_ge 4 (i32pat v) (le_trans (by norm_num) hp)
    omega
  · have hp : i32pat (-1) = 4294967295 := by decide
    simp [varintBytes, hp, write_varint_go]

/-- Witness for C2 at `v = 5` (one byte) and `v = -1` (five bytes). -/
theorem c2_witness :
    (varintBytes 5).length ≤ 5
      ∧ (varintBytes 5).length = 1
      ∧ (varintBytes (-1)).length = 5 :=
  ⟨c2_varint_byte_lengths.1 5,
    c2_varint_byte_lengths.2.1 5 (by norm_num) (by norm_num),
    c2_varint_byte_lengths.2.2.2.1 (-1) (by norm_num) (by norm_num)⟩

/-- C3: for every `i32` value `v`, the standard VarInt decoder (7 payload
bits per byte, little-endian groups, high bit as continuation, no zigzag,
reassembled as a 32-bit pattern reinterpreted as `i32`) applied to the bytes
`write_varint(v)` appends yields exactly `v`, consuming exactly those bytes
and leaving any trailing bytes unconsumed. -/
theorem c3_varint_roundtrip (v : Int) (h1 : -2 ^ 31 ≤ v) (h2 : v < 2 ^ 31)
    (extra : List Nat) :
    decode_varint (varintBytes v ++ extra) = some (v, extra) := by
  unfold decode_varint varintBytes
  by_cases h : i32pat v = 0
  · have hv : v = 0 := by
      unfold i32pat at h
      omega
    subst hv
    simp [h, decode_varint_go, i32val]
  · rw [if_neg h, decode_go_write_go (i32pat v) h 0 0 extra]
    have hlt := i32pat_lt v
    simp only [Option.map_some', zero_add, pow_zero, mul_one]
    rw [Nat.mod_eq_of_lt hlt, i32val_i32pat v h1 h2]

/-- Witness for C3 at `v = -1` with trailing bytes `[9]`. -/
theorem c3_witness : decode_varint (varintBytes (-1) ++ [9]) = some (-1, [9]) :=
  c3_varint_roundtrip (-1) (by norm_num) (by norm_num) [9]

/-- C1, counterexample: at `v = 0x12345678` the default `u32` dispatch
appends the two bytes `[0x56, 0x78]`, not the 4-byte big-endian form
`[0x12, 0x34, 0x56, 0x78]` that `write_int` appends. -/
theorem c1_counterexample :
    u32_write_into 0x12345678 [] ≠ write_int [] 0x12345678 := by
  decide

/-- C1 (amended): the default (non-compact) `u32` dispatch delegates to the
16-bit (`i16`) path: `write_into(v, buf)` appends the 2-byte big-endian
encoding of `v`'s low 16 bits, truncating every value above 65535 — not the
4-byte `write_int` form; by contrast `u16` delegating to the same 16-bit path
is bit-exact. -/
theorem c1_u32_dispatch_via_i16 :
    (∀ (v : Nat) (buf : List Nat),
        u32_write_into v buf = buf ++ [v % 2 ^ 16 / 2 ^ 8, v % 2 ^ 8])
      ∧ ∀ (v : Nat) (buf : List Nat), v < 2 ^ 16 →
          u16_write_into v buf = buf ++ [v / 2 ^ 8, v % 2 ^ 8] := by
  constructor
  · intro v buf
    unfold u32_write_into i16_write_into write_short
    rw [i16pat_i16val (v % 2 ^ 16) (Nat.mod_lt _ (by norm_num))]
    have h8 : v % 2 ^ 16 % 2 ^ 8 = v % 2 ^ 8 := by omega
    rw [h8]
  · intro v buf h
    unfold u16_write_into i16_write_into write_short
    rw [i16pat_i16val (v % 2 ^ 16) (Nat.mod_lt _ (by norm_num))]
    rw [Nat.mod_eq_of_lt h]

/-- Witness for C1 at the `u16` value `0xFEDC`. -/
theorem c1_witness :
    u16_write_into 0xFEDC [] = [] ++ [0xFEDC / 2 ^ 8, 0xFEDC % 2 ^ 8] :=
  c1_u32_dispatch_via_i16.2 0xFEDC [] (by norm_num)

/-- C4: `write_utf_with_len(s, len)` aborts (panics) if and only if the UTF-8
byte length of `s` exceeds `len`, and on failure the sink is unchanged — the
length check precedes every write, so no partial output is emitted; and
`write_utf(s)` is the same operation at the protocol-wide maximum string byte
length. -/
theorem c4_write_utf_len_abort (buf s : List Nat) (len : Nat) :
    ((write_utf_with_len buf s len).2 = false ↔ s.length > len)
      ∧ ((write_utf_with_len buf s len).2 = false →
          (write_utf_with_len buf s len).1 = buf)
      ∧ write_utf buf s = write_utf_with_len buf s MAX_STRING_LENGTH := by
  unfold write_utf write_utf_with_len
  by_cases h : s.length > len <;> simp [h]

/-- Witness for C4: a 2-byte string against limit 1 fails with the sink
untouched. -/
theorem c4_witness :
    ((write_utf_with_len [1] [7, 7] 1).2 = false ↔ ([7, 7] : List Nat).length > 1)
      ∧ ((write_utf_with_len [1] [7, 7] 1).2 = false →
          (write_utf_with_len [1] [7, 7] 1).1 = [1])
      ∧ write_utf [1] [7, 7] = write_utf_with_len [1] [7, 7] MAX_STRING_LENGTH :=
  c4_write_utf_len_abort [1] [7, 7] 1

/-- C5: for every 128-bit UUID value `u`,
`from_int_array(to_int_array(u)) = u` (the all-zero and all-one patterns
included); the UUID `6536bfed-8695-48fd-83a1-ecd24cf2a0fd` maps to the words
`[0x6536bfed, 0x869548fd, 0x83a1ecd2, 0x4cf2a0fd]` and those words map back
to it; both functions are total Lean functions with no error case. -/
theorem c5_uuid_int_array_roundtrip :
    (∀ u : Nat, u < 2 ^ 128 → from_int_array (to_int_array u) = u)
      ∧ to_int_array 0x6536bfed869548fd83a1ecd24cf2a0fd
          = [0x6536bfed, 0x869548fd, 0x83a1ecd2, 0x4cf2a0fd]
      ∧ from_int_array [0x6536bfed, 0x869548fd, 0x83a1ecd2, 0x4cf2a0fd]
          = 0x6536bfed869548fd83a1ecd24cf2a0fd := by
  refine ⟨?_, by decide, by decide⟩
  intro u hu
  simp only [to_int_array, least_most_to_int_array, from_int_array]
  omega

/-- Witness for C5 at the all-one 128-bit pattern. -/
theorem c5_witness :
    from_int_array (to_int_array (2 ^ 128 - 1)) = 2 ^ 128 - 1 :=
  c5_uuid_int_array_roundtrip.1 (2 ^ 128 - 1) (by norm_num)

/-- C6: for every string whose UTF-8 byte length is within the limit,
`write_utf(s)` appends exactly the VarInt encoding of the byte length
followed by the UTF-8 bytes; concretely `write_utf("A")` appends the two
bytes `[0x01, 0x41]`. -/
theorem c6_write_utf_framing :
    (∀ (buf s : List Nat), s.length ≤ MAX_STRING_LENGTH →
        write_utf buf s = (buf ++ varintBytes (s.length : Int) ++ s, true))
      ∧ write_utf [] [0x41] = ([0x01, 0x41], true) := by
  have hmain : ∀ (buf s : List Nat), s.length ≤ MAX_STRING_LENGTH →
      write_utf buf s = (buf ++ varintBytes (s.length : Int) ++ s, true) := by
    intro buf s h
    unfold write_utf write_utf_with_len write_bytes write_varint
    rw [if_neg (by omega)]
  refine ⟨hmain, ?_⟩
  rw [hmain [] [0x41] (by norm_num [MAX_STRING_LENGTH])]
  have hp : i32pat (([0x41] : List Nat).length : Int) = 1 := by decide
  have h1 : varintBytes (([0x41] : List Nat).length : Int) = [1] := by
    unfold varintBytes
    rw [hp, if_neg (by norm_num), write_varint_go_succ 1 (by norm_num)]
    norm_num [write_varint_go_zero]
  rw [h1]
  rfl

/-- Witness for C6 at the one-byte string `"A"`. -/
theorem c6_witness :
    write_utf [] [0x41]
      = ([] ++ varintBytes ((([0x41] : List Nat).length : Nat) : Int) ++ [0x41], true) :=
  c6_write_utf_framing.1 [] [0x41] (by norm_num [MAX_STRING_LENGTH])

/-- C7: `write_list(items, w)` appends the VarInt of `items.length` followed
by, for each item in input order, exactly the bytes `w` appends for that
item, with no extra framing between elements; concretely
`write_list([7, 9], write_varint)` appends `[0x02, 0x07, 0x09]`; and
`write_int_id_list` equals `write_list` with `write_varint` as the element
writer. -/
theorem c7_write_list_framing :
    (∀ (T : Type) (buf : List Nat) (items : List T)
        (w : List Nat → T → List Nat) (wbytes : T → List Nat),
        (∀ b x, w b x = b ++ wbytes x) →
        write_list buf items w
          = buf ++ varintBytes (items.length : Int) ++ (items.map wbytes).flatten)
      ∧ write_list [] [(7 : Int), 9] (fun b n => write_varint b n) = [0x02, 0x07, 0x09]
      ∧ ∀ (buf : List Nat) (l : List Int),
          write_int_id_list buf l = write_list buf l (fun b n => write_varint b n) := by
  have hmain : ∀ (T : Type) (buf : List Nat) (items : List T)
      (w : List Nat → T → List Nat) (wbytes : T → List Nat),
      (∀ b x, w b x = b ++ wbytes x) →
      write_list buf items w
        = buf ++ varintBytes (items.length : Int) ++ (items.map wbytes).flatten := by
    intro T buf items w wbytes hw
    unfold write_list
    rw [foldl_writer_join w wbytes hw items, write_varint, List.append_assoc]
  refine ⟨hmain, ?_, fun buf l => rfl⟩
  rw [hmain Int [] [(7 : Int), 9] (fun b n => write_varint b n)
    (fun n => varintBytes n) (fun _ _ => rfl)]
  have h2 : varintBytes (([(7 : Int), 9].length : Nat) : Int) = [2] := by
    have hp : i32pat (([(7 : Int), 9].length : Nat) : Int) = 2 := by decide
    unfold varintBytes
    rw [hp, if_neg (by norm_num), write_varint_go_succ 2 (by norm_num)]
    norm_num [write_varint_go_zero]
  have h7 : varintBytes (7 : Int) = [7] := by
    have hp : i32pat (7 : Int) = 7 := by decide
    unfold varintBytes
    rw [hp, if_neg (by norm_num), write_varint_go_succ 7 (by norm_num)]
    norm_num [write_varint_go_zero]
  have h9 : varintBytes (9 : Int) = [9] := by
    have hp : i32pat (9 : Int) = 9 := by decide
    unfold varintBytes
    rw [hp, if_neg (by norm_num), write_varint_go_succ 9 (by norm_num)]
    norm_num [write_varint_go_zero]
  rw [List.map_cons, List.map_cons, List.map_nil, h2, h7, h9]
  rfl

/-- Witness for C7: the general framing instantiated at the element writer
`write_varint` on the list `[7, 9]`. -/
theorem c7_witness :
    write_list [] [(7 : Int), 9] (fun b n => write_varint b n)
      = [] ++ varintBytes (([(7 : Int), 9].length : Nat) : Int)
          ++ ([(7 : Int), 9].map (fun n => varintBytes n)).flatten :=
  c7_write_list_framing.1 Int [] [(7 : Int), 9] (fun b n => write_varint b n)
    (fun n => varintBytes n) (fun _ _ => rfl)

/-- C8: every primitive and collection writer is append-only — after a
successful call the sink equals the prior content followed by the newly
appended bytes; for `write_list`/`write_map` this holds whenever the supplied
element writers are themselves append-only, and for the fallible string
writers it is stated for successful (non-panicking) calls. -/
theorem c8_append_only :
    (∀ (buf : List Nat) (n : Nat), ∃ t, write_byte buf n = buf ++ t)
      ∧ (∀ (buf bs : List Nat), ∃ t, write_bytes buf bs = buf ++ t)
      ∧ (∀ (buf : List Nat) (v : Int), ∃ t, write_varint buf v = buf ++ t)
      ∧ (∀ (buf : List Nat) (n : Int), ∃ t, write_short buf n = buf ++ t)
      ∧ (∀ (buf : List Nat) (n : Int), ∃ t, write_int buf n = buf ++ t)
      ∧ (∀ (buf : List Nat) (n : Int), ∃ t, write_long buf n = buf ++ t)
      ∧ (∀ (buf : List Nat) (bits : Nat), ∃ t, write_float buf bits = buf ++ t)
      ∧ (∀ (buf : List Nat) (b : Bool), ∃ t, write_boolean buf b = buf ++ t)
      ∧ (∀ (buf s : List Nat), (write_utf buf s).2 = true →
          ∃ t, (write_utf buf s).1 = buf ++ t)
      ∧ (∀ (buf bs : List Nat), ∃ t, write_byte_array buf bs = buf ++ t)
      ∧ (∀ (buf : List Nat) (r : ResourceLocation),
          (write_resource_location buf r).2 = true →
            ∃ t, (write_resource_location buf r).1 = buf ++ t)
      ∧ (∀ (T : Type) (buf : List Nat) (l : List T)
          (w : List Nat → T → List Nat),
          (∀ b x, ∃ t, w b x = b ++ t) → ∃ t, write_list buf l w = buf ++ t)
      ∧ (∀ (KT VT : Type) (buf : List Nat) (m : List (KT × VT))
          (kw : List Nat → KT → List Nat) (vw : List Nat → VT → List Nat),
          (∀ b k, ∃ t, kw b k = b ++ t) → (∀ b v, ∃ t, vw b v = b ++ t) →
            ∃ t, write_map buf m kw vw = buf ++ t) := by
  have hutf : ∀ (buf s : List Nat), (write_utf buf s).2 = true →
      ∃ t, (write_utf buf s).1 = buf ++ t := by
    intro buf s hflag
    unfold write_utf write_utf_with_len at hflag ⊢
    by_cases h : s.length > MAX_STRING_LENGTH
    · rw [if_pos h] at hflag
      exact absurd hflag (by simp)
    · rw [if_neg h]
      exact ⟨varintBytes (s.length : Int) ++ s,
        by unfold write_bytes write_varint; rw [List.append_assoc]⟩
  refine ⟨fun buf n => ⟨[n], rfl⟩,
    fun buf bs => ⟨bs, rfl⟩,
    fun buf v => ⟨varintBytes v, rfl⟩,
    fun buf n => ⟨_, rfl⟩,
    fun buf n => ⟨_, rfl⟩,
    fun buf n => ⟨_, rfl⟩,
    fun buf bits => ⟨_, rfl⟩,
    fun buf b => ⟨_, rfl⟩,
    hutf,
    fun buf bs => ⟨varintBytes (bs.length : Int) ++ bs,
      by unfold write_byte_array write_bytes write_varint; rw [List.append_assoc]⟩,
    fun buf r hflag => hutf buf r.canonical hflag,
    ?_, ?_⟩
  · intro T buf l w hw
    unfold write_list
    obtain ⟨t, ht⟩ := foldl_writer_ex w hw l (write_varint buf (l.length : Int))
    exact ⟨varintBytes (l.length : Int) ++ t,
      by rw [ht]; unfold write_varint; rw [List.append_assoc]⟩
  · intro KT VT buf m kw vw hk hv
    unfold write_map
    have hpair : ∀ (b : List Nat) (kv : KT × VT),
        ∃ t, vw (kw b kv.1) kv.2 = b ++ t := by
      intro b kv
      obtain ⟨t1, h1⟩ := hk b kv.1
      obtain ⟨t2, h2⟩ := hv (kw b kv.1) kv.2
      exact ⟨t1 ++ t2, by rw [h2, h1, List.append_assoc]⟩
    obtain ⟨t, ht⟩ :=
      foldl_writer_ex (fun b kv => vw (kw b kv.1) kv.2) hpair m
        (write_varint buf (m.length : Int))
    exact ⟨varintBytes (m.length : Int) ++ t,
      by rw [ht]; unfold write_varint; rw [List.append_assoc]⟩

/-- Witness for C8: the `write_list` conjunct at the element writer
`write_varint`, whose own append-only fact discharges the hypothesis. -/
theorem c8_witness :
    ∃ t, write_list [9] [(7 : Int)] (fun b n => write_varint b n) = [9] ++ t := by
  refine c8_append_only.2.2.2.2.2.2.2.2.2.2.2.1 Int [9] [(7 : Int)]
    (fun b n => write_varint b n) ?_
  intro b x
  exact c8_append_only.2.2.1 b x

/-- C10: the type-to-wire dispatch for `Vec<u8>` appends the byte vector
verbatim with no VarInt length prefix — it equals `write_bytes`, and its
output on the same sink and content always differs from the length-prefixed
`write_byte_array`. -/
theorem c10_vec_u8_dispatch_raw :
    ∀ (v buf : List Nat),
      vec_u8_write_into v buf = buf ++ v
        ∧ vec_u8_write_into v buf ≠ write_byte_array buf v := by
  intro v buf
  refine ⟨rfl, ?_⟩
  unfold vec_u8_write_into write_byte_array write_bytes write_varint
  intro hcontra
  have hlen := congrArg List.length hcontra
  simp only [List.length_append] at hlen
  have hne := varintBytes_ne_nil ((v.length : Nat) : Int)
  have hpos : 0 < (varintBytes ((v.length : Nat) : Int)).length :=
    List.length_pos.mpr hne
  omega

/-- Witness for C10 at the one-byte vector `[5]` over the sink `[9]`. -/
theorem c10_witness :
    vec_u8_write_into [5] [9] = [9] ++ [5]
      ∧ vec_u8_write_into [5] [9] ≠ write_byte_array [9] [5] :=
  c10_vec_u8_dispatch_raw [5] [9]
